import Mathlib

/-!
Shallow embedding of the bbgo sync command (`pkg/cmd/sync.go`), the FTX
streaming client (`pkg/exchange/ftx` Stream), and the kucoin example order
commands, together with theorems checking the natural-language specification
against the embedded code.

Machine conventions:
* Balance totals are embedded as `Int`: in the implementation a balance total
  is a signed fixed-point value (available + locked), so negative totals are
  representable.
* Errors are embedded as `String` values; the orchestrator and engine calls
  return `Option Err` (`none` = success) or `Except Err α`.
* Sequential Go code that performs effectful calls is embedded as functions
  returning an event trace (`List Ev`) alongside the result, in execution
  order.
-/

namespace BbgoSync

abbrev Err := String

/-- Modelled from the spec: a Balance snapshot is a read-only mapping from
currency code to total quantity (available + reserved).  The underlying
implementation type (`pkg/types` Balance, not under `src/`) stores signed
fixed-point values, so the total is embedded as `Int`.  The snapshot is a
finite association list with distinct keys (a Go map). -/
abbrev Balances := List (String × Int)

/-- Map lookup: `balance, ok := balances[currency]`, returning the total. -/
def Balances.total (b : Balances) (c : String) : Option Int :=
  b.lookup c

/-- `pkg/types` Market (fields used by `findPossibleSymbols`). -/
structure Market where
  symbol : String
  baseCurrency : String
  quoteCurrency : String
deriving DecidableEq, Repr

/-- `stringSliceContains` from `pkg/cmd/sync.go`. -/
def stringSliceContains (slice : List String) (needle : String) : Bool :=
  match slice with
  | [] => false
  | s :: rest => if s = needle then true else stringSliceContains rest needle

/-- The fixed fiat reference list from `findPossibleSymbols`. -/
def fiatCurrencies : List String := ["USDC", "USDT", "USD", "TWD", "EUR", "GBP"]

/-- The fiat-asset accumulation loop of `findPossibleSymbols`:
currencies of the reference list present in the balances with
`balance.Total() > 0`. -/
def fiatAssets (balances : Balances) : List String :=
  fiatCurrencies.filter (fun currency =>
    match balances.total currency with
    | some t => decide (t > 0)
    | none => false)

/-- Insertion into the `symbolMap` set, keeping first-insertion order
(Go uses a `map[string]struct{}`; the claims are order-insensitive). -/
def insertSymbol (acc : List String) (s : String) : List String :=
  if s ∈ acc then acc else acc ++ [s]

/-- One iteration of the market loop in `findPossibleSymbols`: skip markets
whose quote currency is not a fiat asset, skip base assets that are absent
or whose total is `== 0`, otherwise record the symbol. -/
def marketStep (balances : Balances) (acc : List String) (market : Market) :
    List String :=
  if stringSliceContains (fiatAssets balances) market.quoteCurrency then
    match balances.total market.baseCurrency with
    | some t => if t = 0 then acc else insertSymbol acc market.symbol
    | none => acc
  else acc

/-- The pure core of `findPossibleSymbols` (`pkg/cmd/sync.go:153`), after
`session.Init` succeeded: derive the symbols to sync from the session's
balances and markets. -/
def findPossibleSymbols (balances : Balances) (markets : List Market) :
    List String :=
  markets.foldl (marketStep balances) []

/-- The claim's per-symbol predicate, following the spec's words: some market
has this symbol, its quote currency lies in the fiat-asset set of the
balances, and its base currency is present with strictly positive total. -/
def claimDiscovered (balances : Balances) (markets : List Market)
    (s : String) : Bool :=
  markets.any (fun market =>
    market.symbol == s &&
    stringSliceContains (fiatAssets balances) market.quoteCurrency &&
    (match balances.total market.baseCurrency with
     | some t => decide (t > 0)
     | none => false))

/-- The amended per-symbol predicate: as `claimDiscovered` but the base
currency total only has to be nonzero, matching the code's `Total() == 0`
skip. -/
def amendedDiscovered (balances : Balances) (markets : List Market)
    (s : String) : Bool :=
  markets.any (fun market =>
    market.symbol == s &&
    stringSliceContains (fiatAssets balances) market.quoteCurrency &&
    (match balances.total market.baseCurrency with
     | some t => decide (t ≠ 0)
     | none => false))

theorem mem_insertSymbol {acc : List String} {s x : String} :
    x ∈ insertSymbol acc s ↔ x ∈ acc ∨ x = s := by
  unfold insertSymbol
  by_cases h : s ∈ acc
  · simp only [h, if_true]
    constructor
    · exact Or.inl
    · rintro (hx | rfl)
      · exact hx
      · exact h
  · simp [h]

theorem nodup_insertSymbol {acc : List String} (h : acc.Nodup) (s : String) :
    (insertSymbol acc s).Nodup := by
  unfold insertSymbol
  by_cases hs : s ∈ acc
  · simpa [hs]
  · simp only [hs, if_false]
    simpa [List.nodup_append] using ⟨h, hs⟩

theorem mem_marketStep {balances : Balances} {acc : List String}
    {market : Market} {x : String} :
    x ∈ marketStep balances acc market ↔
      x ∈ acc ∨
        (market.symbol = x ∧
          stringSliceContains (fiatAssets balances) market.quoteCurrency = true ∧
          ∃ t, balances.total market.baseCurrency = some t ∧ t ≠ 0) := by
  unfold marketStep
  cases hq : stringSliceContains (fiatAssets balances) market.quoteCurrency with
  | false => simp [hq]
  | true =>
    simp only [if_true]
    cases hb : balances.total market.baseCurrency with
    | none => simp [hb]
    | some t =>
      by_cases ht : t = 0
      · subst ht
        simp [hb]
      · simp only [ht, if_false, mem_insertSymbol, hb]
        constructor
        · rintro (hx | rfl)
          · exact Or.inl hx
          · exact Or.inr ⟨rfl, trivial, t, rfl, ht⟩
        · rintro (hx | ⟨rfl, -, t', ht', hne⟩)
          · exact Or.inl hx
          · exact Or.inr rfl

theorem nodup_marketStep {balances : Balances} {acc : List String}
    (h : acc.Nodup) (market : Market) :
    (marketStep balances acc market).Nodup := by
  unfold marketStep
  cases hq : stringSliceContains (fiatAssets balances) market.quoteCurrency with
  | false => simpa [hq]
  | true =>
    simp only [if_true]
    cases balances.total market.baseCurrency with
    | none => exact h
    | some t =>
      by_cases ht : t = 0
      · simpa [ht]
      · simpa [ht] using nodup_insertSymbol h market.symbol

theorem mem_foldl_marketStep {balances : Balances} (markets : List Market)
    (acc : List String) (x : String) :
    x ∈ markets.foldl (marketStep balances) acc ↔
      x ∈ acc ∨
        ∃ market ∈ markets, market.symbol = x ∧
          stringSliceContains (fiatAssets balances) market.quoteCurrency = true ∧
          ∃ t, balances.total market.baseCurrency = some t ∧ t ≠ 0 := by
  induction markets generalizing acc with
  | nil => simp
  | cons m rest ih =>
    rw [List.foldl_cons, ih, mem_marketStep]
    constructor
    · rintro ((hx | hm) | ⟨mk, hmk, hrest⟩)
      · exact Or.inl hx
      · exact Or.inr ⟨m, List.mem_cons_self m rest, hm⟩
      · exact Or.inr ⟨mk, List.mem_cons_of_mem m hmk, hrest⟩
    · rintro (hx | ⟨mk, hmk, hrest⟩)
      · exact Or.inl (Or.inl hx)
      · rcases List.mem_cons.mp hmk with rfl | hmk'
        · exact Or.inl (Or.inr hrest)
        · exact Or.inr ⟨mk, hmk', hrest⟩

theorem nodup_foldl_marketStep {balances : Balances} (markets : List Market)
    (acc : List String) (h : acc.Nodup) :
    (markets.foldl (marketStep balances) acc).Nodup := by
  induction markets generalizing acc with
  | nil => exact h
  | cons m rest ih => exact ih _ (nodup_marketStep h m)

theorem match_total_ne (o : Option Int) :
    (match o with | some t => decide (t ≠ 0) | none => false) = true ↔
      ∃ t, o = some t ∧ t ≠ 0 := by
  cases o <;> simp

theorem amendedDiscovered_iff (balances : Balances) (markets : List Market)
    (s : String) :
    amendedDiscovered balances markets s = true ↔
      ∃ market ∈ markets, market.symbol = s ∧
        stringSliceContains (fiatAssets balances) market.quoteCurrency = true ∧
        ∃ t, balances.total market.baseCurrency = some t ∧ t ≠ 0 := by
  unfold amendedDiscovered
  rw [List.any_eq_true]
  constructor
  · rintro ⟨market, hm, hf⟩
    rw [Bool.and_eq_true, Bool.and_eq_true] at hf
    obtain ⟨⟨h1, h2⟩, h3⟩ := hf
    exact ⟨market, hm, beq_iff_eq.mp h1, h2, (match_total_ne _).mp h3⟩
  · rintro ⟨market, hm, h1, h2, h3⟩
    refine ⟨market, hm, ?_⟩
    rw [Bool.and_eq_true, Bool.and_eq_true]
    exact ⟨⟨beq_iff_eq.mpr h1, h2⟩, (match_total_ne _).mpr h3⟩

/-- **C1 (counterexample).** With balances `{USDT ↦ 1, ETH ↦ -1}` and the
single market `ETHUSDT` (base `ETH`, quote `USDT`), `findPossibleSymbols`
returns `ETHUSDT` even though the base-currency total is negative, so the
claim's "base currency present with strictly positive total" predicate
rejects it: the code only skips a base total equal to zero
(`balance.Total() == 0`). -/
theorem findPossibleSymbols_includes_negative_total :
    "ETHUSDT" ∈ findPossibleSymbols [("USDT", 1), ("ETH", -1)]
        [⟨"ETHUSDT", "ETH", "USDT"⟩] ∧
      claimDiscovered [("USDT", 1), ("ETH", -1)]
        [⟨"ETHUSDT", "ETH", "USDT"⟩] "ETHUSDT" = false := by
  constructor
  · decide
  · decide

/-- **C1 (amended).** `findPossibleSymbols` returns exactly the symbols of
markets whose quote currency is a fiat asset of the balances (fiat-list
member with strictly positive total) and whose base currency is present in
the balances with *nonzero* total (the code's `Total() == 0` skip admits
negative totals), and the result contains no duplicate symbol. -/
theorem findPossibleSymbols_characterization
    (balances : Balances) (markets : List Market) (s : String) :
    (s ∈ findPossibleSymbols balances markets ↔
      amendedDiscovered balances markets s = true) ∧
      (findPossibleSymbols balances markets).Nodup := by
  constructor
  · rw [findPossibleSymbols, mem_foldl_marketStep, amendedDiscovered_iff]
    simp only [List.not_mem_nil, false_or]
  · exact nodup_foldl_marketStep markets [] List.nodup_nil

/-! ### Sync orchestrator (`SyncCmd.RunE` and `syncSessionSymbol`)

The orchestrator is embedded as trace-producing functions.  The engine
collaborator (`environ.TradeSync.SyncTrades` / `SyncOrders`) and symbol
discovery (`findPossibleSymbols`, whose `session.Init` call can fail) are
supplied as oracles keyed by session name, since a session's exchange
handle is in one-to-one correspondence with the session. -/

/-- `bbgo.ExchangeSession` (fields used by the sync command). -/
structure Session where
  name : String
  isolatedMargin : Bool
  isolatedMarginSymbol : String
deriving DecidableEq, Repr

/-- One observable call made by the orchestrator, in execution order. -/
inductive Ev
  /-- `findPossibleSymbols(ctx, environ, session)` was invoked. -/
  | discover (sess : String)
  /-- `environ.TradeSync.SyncTrades(ctx, session.Exchange, sym, startTime)`. -/
  | syncTrades (sess sym : String)
  /-- `environ.TradeSync.SyncOrders(ctx, session.Exchange, sym, startTime)`. -/
  | syncOrders (sess sym : String)
deriving DecidableEq, Repr

/-- Engine oracle: result of one `SyncTrades`/`SyncOrders` call for a
(session name, symbol); `none` means success. -/
abbrev EngineOracle := String → String → Option Err

/-- Discovery oracle: result of `findPossibleSymbols` for a session
(covering both an `Init` failure and the discovered list). -/
abbrev DiscoverOracle := String → Except Err (List String)

/-- The `symbol = session.IsolatedMarginSymbol` substitution at the top of
`syncSessionSymbol`: the effective symbol passed to both engine calls. -/
def effectiveSymbol (sess : Session) (symbol : String) : String :=
  if sess.isolatedMargin then sess.isolatedMarginSymbol else symbol

/-- `syncSessionSymbol` (`pkg/cmd/sync.go:193`): substitute the
isolated-margin symbol when the session is flagged, call `SyncTrades`,
and only on its success call `SyncOrders`; return the first error. -/
def syncSessionSymbol (tr orEng : EngineOracle) (sess : Session)
    (symbol : String) : List Ev × Option Err :=
  match tr sess.name (effectiveSymbol sess symbol) with
  | some e => ([.syncTrades sess.name (effectiveSymbol sess symbol)], some e)
  | none =>
    match orEng sess.name (effectiveSymbol sess symbol) with
    | some e =>
      ([.syncTrades sess.name (effectiveSymbol sess symbol),
        .syncOrders sess.name (effectiveSymbol sess symbol)], some e)
    | none =>
      ([.syncTrades sess.name (effectiveSymbol sess symbol),
        .syncOrders sess.name (effectiveSymbol sess symbol)], none)

/-- The inner `for _, s := range symbols` loop of `SyncCmd.RunE`:
run `syncSessionSymbol` on each symbol in order, aborting on the first
error. -/
def syncSymbolsLoop (tr orEng : EngineOracle) (sess : Session) :
    List String → List Ev × Option Err
  | [] => ([], none)
  | s :: rest =>
    let (ev, r) := syncSessionSymbol tr orEng sess s
    match r with
    | some e => (ev, some e)
    | none =>
      let (ev2, r2) := syncSymbolsLoop tr orEng sess rest
      (ev ++ ev2, r2)

/-- The `for _, session := range environ.Sessions()` loop of `SyncCmd.RunE`.
The `symbols` slice is threaded through the whole loop: it is (re)computed by
discovery only when it is empty, so a non-empty discovered list is reused by
every later session.  After the per-symbol loop, the code performs one more
`syncSessionSymbol` call with the *original* `symbol` flag value
(`sync.go:134`), even when that value is the empty string. -/
def runAllSessions (disc : DiscoverOracle) (tr orEng : EngineOracle)
    (origSymbol : String) :
    List Session → List String → List Ev × Option Err
  | [], _ => ([], none)
  | sess :: rest, symbols =>
    if symbols.isEmpty then
      match disc sess.name with
      | .error e => ([.discover sess.name], some e)
      | .ok syms =>
        let (ev1, r1) := syncSymbolsLoop tr orEng sess syms
        match r1 with
        | some e => (.discover sess.name :: ev1, some e)
        | none =>
          let (ev2, r2) := syncSessionSymbol tr orEng sess origSymbol
          match r2 with
          | some e => (.discover sess.name :: (ev1 ++ ev2), some e)
          | none =>
            let (ev3, r3) := runAllSessions disc tr orEng origSymbol rest syms
            (.discover sess.name :: (ev1 ++ ev2 ++ ev3), r3)
    else
      let (ev1, r1) := syncSymbolsLoop tr orEng sess symbols
      match r1 with
      | some e => (ev1, some e)
      | none =>
        let (ev2, r2) := syncSessionSymbol tr orEng sess origSymbol
        match r2 with
        | some e => (ev1 ++ ev2, some e)
        | none =>
          let (ev3, r3) := runAllSessions disc tr orEng origSymbol rest symbols
          (ev1 ++ ev2 ++ ev3, r3)

/-- The single-session branch of `SyncCmd.RunE` (`--session` supplied):
discover only when no explicit symbol was given, then run the per-symbol
loop; this branch has no trailing extra call. -/
def runSingleSession (disc : DiscoverOracle) (tr orEng : EngineOracle)
    (sess : Session) (symbols : List String) : List Ev × Option Err :=
  if symbols.isEmpty then
    match disc sess.name with
    | .error e => ([.discover sess.name], some e)
    | .ok syms =>
      let (ev, r) := syncSymbolsLoop tr orEng sess syms
      (.discover sess.name :: ev, r)
  else syncSymbolsLoop tr orEng sess symbols

/-- Session lookup, `environ.Session(sessionName)`. -/
def lookupSession (sessions : List Session) (name : String) :
    Option Session :=
  sessions.find? (fun sess => sess.name == name)

/-- The initial `symbols` slice of `SyncCmd.RunE` (`sync.go:89`):
`[symbol]` when a symbol flag was supplied, else empty. -/
def initialSymbols (symbol : String) : List String :=
  if symbol.length > 0 then [symbol] else []

/-- The core of `SyncCmd.RunE` after flag/config resolution: an empty
`sessionName`/`symbol` string is an absent flag. -/
def runSync (disc : DiscoverOracle) (tr orEng : EngineOracle)
    (sessionName symbol : String) (sessions : List Session) :
    List Ev × Option Err :=
  if sessionName.length > 0 then
    match lookupSession sessions sessionName with
    | none => ([], some ("session " ++ sessionName ++ " not found"))
    | some sess => runSingleSession disc tr orEng sess (initialSymbols symbol)
  else
    runAllSessions disc tr orEng symbol sessions (initialSymbols symbol)

theorem syncSessionSymbol_eq (tr orEng : EngineOracle) (sess : Session)
    (symbol : String) :
    syncSessionSymbol tr orEng sess symbol =
      match tr sess.name (effectiveSymbol sess symbol) with
      | some e => ([.syncTrades sess.name (effectiveSymbol sess symbol)], some e)
      | none =>
        ([.syncTrades sess.name (effectiveSymbol sess symbol),
          .syncOrders sess.name (effectiveSymbol sess symbol)],
          orEng sess.name (effectiveSymbol sess symbol)) := by
  unfold syncSessionSymbol
  cases tr sess.name (effectiveSymbol sess symbol) with
  | some e => rfl
  | none =>
    cases orEng sess.name (effectiveSymbol sess symbol) with
    | some e => rfl
    | none => rfl

theorem discover_not_mem_syncSessionSymbol (tr orEng : EngineOracle)
    (sess : Session) (symbol n : String) :
    Ev.discover n ∉ (syncSessionSymbol tr orEng sess symbol).1 := by
  rw [syncSessionSymbol_eq]
  cases tr sess.name (effectiveSymbol sess symbol) <;> simp

theorem discover_not_mem_syncSymbolsLoop (tr orEng : EngineOracle)
    (sess : Session) (symbols : List String) (n : String) :
    Ev.discover n ∉ (syncSymbolsLoop tr orEng sess symbols).1 := by
  induction symbols with
  | nil => simp [syncSymbolsLoop]
  | cons s rest ih =>
    unfold syncSymbolsLoop
    cases h : syncSessionSymbol tr orEng sess s with
    | mk ev r =>
      have hev : Ev.discover n ∉ ev := by
        have := discover_not_mem_syncSessionSymbol tr orEng sess s n
        rwa [h] at this
      cases r with
      | some e => simpa using hev
      | none =>
        cases h2 : syncSymbolsLoop tr orEng sess rest with
        | mk ev2 r2 =>
          have hev2 : Ev.discover n ∉ ev2 := by rwa [h2] at ih
          simp only [List.mem_append]
          rintro (hx | hx)
          · exact hev hx
          · exact hev2 hx

/-- **C6.** For every engine oracle, session and requested symbol, the
trace of `syncSessionSymbol` is either the single trade-sync call (exactly
when trade-sync returned an error) or the trade-sync call followed by the
order-sync call (exactly when trade-sync succeeded): trade-sync always
completes before order-sync begins, and order-sync runs only when
trade-sync returned no error. -/
theorem syncSessionSymbol_trades_then_orders (tr orEng : EngineOracle)
    (sess : Session) (symbol : String) :
    ((syncSessionSymbol tr orEng sess symbol).1 =
        [.syncTrades sess.name (effectiveSymbol sess symbol)] ∧
      tr sess.name (effectiveSymbol sess symbol) ≠ none) ∨
    ((syncSessionSymbol tr orEng sess symbol).1 =
        [.syncTrades sess.name (effectiveSymbol sess symbol),
         .syncOrders sess.name (effectiveSymbol sess symbol)] ∧
      tr sess.name (effectiveSymbol sess symbol) = none) := by
  rw [syncSessionSymbol_eq]
  cases h : tr sess.name (effectiveSymbol sess symbol) with
  | some e => exact Or.inl ⟨rfl, by simp⟩
  | none => exact Or.inr ⟨rfl, rfl⟩

/-- **C7.** For a session flagged isolated-margin, `syncSessionSymbol`
passes the configured isolated-margin symbol (never the requested one) to
the engine: the first call is trade-sync on the override symbol, every
event in the trace uses the override symbol, and when trade-sync succeeds
the order-sync call also uses the override symbol — for any requested
symbol, including an explicitly supplied one different from the
override. -/
theorem syncSessionSymbol_isolated_margin_override (tr orEng : EngineOracle)
    (sess : Session) (symbol : String) (h : sess.isolatedMargin = true) :
    (syncSessionSymbol tr orEng sess symbol).1.head? =
        some (.syncTrades sess.name sess.isolatedMarginSymbol) ∧
    (∀ e ∈ (syncSessionSymbol tr orEng sess symbol).1,
        e = .syncTrades sess.name sess.isolatedMarginSymbol ∨
        e = .syncOrders sess.name sess.isolatedMarginSymbol) ∧
    (tr sess.name sess.isolatedMarginSymbol = none →
        Ev.syncOrders sess.name sess.isolatedMarginSymbol ∈
          (syncSessionSymbol tr orEng sess symbol).1) := by
  have hes : effectiveSymbol sess symbol = sess.isolatedMarginSymbol := by
    unfold effectiveSymbol
    rw [h]
    simp
  rw [syncSessionSymbol_eq, hes]
  cases htr : tr sess.name sess.isolatedMarginSymbol with
  | some e =>
    refine ⟨rfl, ?_, ?_⟩
    · intro e he
      simp only [List.mem_singleton] at he
      exact Or.inl he
    · intro hc
      exact absurd hc (by simp [htr])
  | none =>
    refine ⟨rfl, ?_, fun _ => by simp⟩
    intro e he
    rcases List.mem_cons.mp he with rfl | he'
    · exact Or.inl rfl
    · exact Or.inr (List.mem_singleton.mp he')

/-- Witness for the isolated-margin override theorem at a concrete
session whose override symbol differs from the requested symbol. -/
theorem syncSessionSymbol_isolated_margin_override_witness :
    (syncSessionSymbol (fun _ _ => none) (fun _ _ => none)
        ⟨"binance_margin", true, "BTCUSDT"⟩ "ETHUSDT").1.head? =
      some (.syncTrades "binance_margin" "BTCUSDT") :=
  (syncSessionSymbol_isolated_margin_override (fun _ _ => none)
    (fun _ _ => none) ⟨"binance_margin", true, "BTCUSDT"⟩ "ETHUSDT" rfl).1

/-- **C2 (evaluation at the failing input).** With two sessions, an
explicit symbol `BTCUSDT`, and an engine that fails on session `s2`, the
orchestrator invokes the pair `(s1, BTCUSDT)` **twice** (the per-symbol
loop and the redundant trailing `syncSessionSymbol(ctx, environ, session,
symbol, ...)` call at `sync.go:134`) before failing on `(s2, BTCUSDT)` and
returning that error; the claim's "pairs 1..N-1 were each invoked exactly
once" is violated by the duplicate. -/
theorem runSync_duplicate_pair_before_failure :
    runSync (fun _ => .ok [])
        (fun n _ => if n = "s2" then some "engine failure" else none)
        (fun _ _ => none) "" "BTCUSDT"
        [⟨"s1", false, ""⟩, ⟨"s2", false, ""⟩] =
      ([.syncTrades "s1" "BTCUSDT", .syncOrders "s1" "BTCUSDT",
        .syncTrades "s1" "BTCUSDT", .syncOrders "s1" "BTCUSDT",
        .syncTrades "s2" "BTCUSDT"], some "engine failure") ∧
    (runSync (fun _ => .ok [])
        (fun n _ => if n = "s2" then some "engine failure" else none)
        (fun _ _ => none) "" "BTCUSDT"
        [⟨"s1", false, ""⟩, ⟨"s2", false, ""⟩]).1.count
      (.syncTrades "s1" "BTCUSDT") = 2 := by
  constructor <;> rfl

/-- **C3 (counterexample).** With two sessions, no explicit symbol, and a
discovery oracle returning a non-empty list for `s1`, discovery is invoked
for `s1` but never for `s2` (the `symbols` slice stays non-empty and is
reused), although the whole run succeeds; the claim's "once per session"
requires one discovery call for `s2`. -/
theorem runSync_no_discovery_for_second_session :
    (runSync (fun n => if n = "s1" then .ok ["BTCUSDT"] else .ok ["ETHUSDT"])
        (fun _ _ => none) (fun _ _ => none) "" ""
        [⟨"s1", false, ""⟩, ⟨"s2", false, ""⟩]).1.count (.discover "s2") = 0 ∧
    (runSync (fun n => if n = "s1" then .ok ["BTCUSDT"] else .ok ["ETHUSDT"])
        (fun _ _ => none) (fun _ _ => none) "" ""
        [⟨"s1", false, ""⟩, ⟨"s2", false, ""⟩]).1.count (.discover "s1") = 1 ∧
    (runSync (fun n => if n = "s1" then .ok ["BTCUSDT"] else .ok ["ETHUSDT"])
        (fun _ _ => none) (fun _ _ => none) "" ""
        [⟨"s1", false, ""⟩, ⟨"s2", false, ""⟩]).2 = none := by
  refine ⟨?_, ?_, ?_⟩ <;> rfl

theorem discover_not_mem_runAllSessions (disc : DiscoverOracle)
    (tr orEng : EngineOracle) (origSymbol : String) :
    ∀ (sessions : List Session) (symbols : List String), symbols ≠ [] →
      ∀ n, Ev.discover n ∉
        (runAllSessions disc tr orEng origSymbol sessions symbols).1 := by
  intro sessions
  induction sessions with
  | nil => intro symbols _ n; simp [runAllSessions]
  | cons sess rest ih =>
    rintro (_ | ⟨s, ss⟩) hs n
    · exact absurd rfl hs
    · unfold runAllSessions
      simp only [List.isEmpty_cons, if_false, Bool.false_eq_true]
      cases h1 : syncSymbolsLoop tr orEng sess (s :: ss) with
      | mk ev1 r1 =>
        have hev1 : Ev.discover n ∉ ev1 := by
          have := discover_not_mem_syncSymbolsLoop tr orEng sess (s :: ss) n
          rwa [h1] at this
        cases r1 with
        | some e => simpa using hev1
        | none =>
          cases h2 : syncSessionSymbol tr orEng sess origSymbol with
          | mk ev2 r2 =>
            have hev2 : Ev.discover n ∉ ev2 := by
              have := discover_not_mem_syncSessionSymbol tr orEng sess
                origSymbol n
              rwa [h2] at this
            cases r2 with
            | some e =>
              simp only [List.mem_append]
              rintro (hx | hx)
              · exact hev1 hx
              · exact hev2 hx
            | none =>
              cases h3 : runAllSessions disc tr orEng origSymbol rest
                  (s :: ss) with
              | mk ev3 r3 =>
                have hev3 : Ev.discover n ∉ ev3 := by
                  have := ih (s :: ss) hs n
                  rwa [h3] at this
                simp only [List.mem_append]
                rintro ((hx | hx) | hx)
                · exact hev1 hx
                · exact hev2 hx
                · exact hev3 hx

/-- **C3 (amended).** Discovery behavior of the all-sessions loop:
(1) an explicitly supplied symbol always suppresses discovery, for every
session; (2) with no explicit symbol, the first session is discovered
before anything else; (3) once a session's discovery returns a non-empty
symbol list, discovery is never invoked for any later session of the run —
the discovered list is carried over and reused instead of being recomputed
per session. -/
theorem runSync_discovery_behavior :
    (∀ (disc : DiscoverOracle) (tr orEng : EngineOracle)
        (sessionName symbol : String) (sessions : List Session) (n : String),
        symbol.length > 0 →
        Ev.discover n ∉ (runSync disc tr orEng sessionName symbol sessions).1) ∧
    (∀ (disc : DiscoverOracle) (tr orEng : EngineOracle)
        (origSymbol : String) (sess : Session) (rest : List Session),
        ((runAllSessions disc tr orEng origSymbol (sess :: rest) []).1.head? =
          some (.discover sess.name))) ∧
    (∀ (disc : DiscoverOracle) (tr orEng : EngineOracle)
        (origSymbol : String) (sess : Session) (rest : List Session)
        (s : String) (syms : List String) (n : String),
        disc sess.name = .ok (s :: syms) → n ≠ sess.name →
        Ev.discover n ∉
          (runAllSessions disc tr orEng origSymbol (sess :: rest) []).1) := by
  refine ⟨?_, ?_, ?_⟩
  · intro disc tr orEng sessionName symbol sessions n hsym
    unfold runSync
    have hinit : initialSymbols symbol = [symbol] := by
      unfold initialSymbols
      rw [if_pos hsym]
    rw [hinit]
    by_cases hname : sessionName.length > 0
    · rw [if_pos hname]
      cases lookupSession sessions sessionName with
      | none => simp
      | some sess =>
        dsimp only
        unfold runSingleSession
        rw [if_neg (by simp : ¬([symbol].isEmpty = true))]
        exact discover_not_mem_syncSymbolsLoop tr orEng sess [symbol] n
    · rw [if_neg hname]
      exact discover_not_mem_runAllSessions disc tr orEng symbol sessions
        [symbol] (by simp) n
  · intro disc tr orEng origSymbol sess rest
    unfold runAllSessions
    simp only [List.isEmpty_nil, if_true]
    cases disc sess.name with
    | error e => rfl
    | ok syms =>
      dsimp only
      cases (syncSymbolsLoop tr orEng sess syms).2 with
      | some e => rfl
      | none =>
        cases (syncSessionSymbol tr orEng sess origSymbol).2 with
        | some e => rfl
        | none => rfl
  · intro disc tr orEng origSymbol sess rest s syms n hdisc hn
    unfold runAllSessions
    simp only [List.isEmpty_nil, if_true, hdisc]
    cases (syncSymbolsLoop tr orEng sess (s :: syms)).2 with
    | some e =>
      simp only [List.mem_cons, Ev.discover.injEq]
      rintro (heq | hx)
      · exact hn heq
      · exact discover_not_mem_syncSymbolsLoop tr orEng sess (s :: syms) n hx
    | none =>
      cases (syncSessionSymbol tr orEng sess origSymbol).2 with
      | some e =>
        simp only [List.mem_cons, List.mem_append, Ev.discover.injEq]
        rintro (heq | hx | hx)
        · exact hn heq
        · exact discover_not_mem_syncSymbolsLoop tr orEng sess (s :: syms) n hx
        · exact discover_not_mem_syncSessionSymbol tr orEng sess origSymbol
            n hx
      | none =>
        simp only [List.mem_cons, List.mem_append, Ev.discover.injEq]
        rintro (heq | (hx | hx) | hx)
        · exact hn heq
        · exact discover_not_mem_syncSymbolsLoop tr orEng sess (s :: syms) n hx
        · exact discover_not_mem_syncSessionSymbol tr orEng sess origSymbol
            n hx
        · exact discover_not_mem_runAllSessions disc tr orEng origSymbol
            rest (s :: syms) (by simp) n hx

/-- Witness for the discovery-behavior theorem: with an explicit symbol
`BTCUSDT`, no discovery event appears in a concrete one-session run. -/
theorem runSync_discovery_behavior_witness :
    Ev.discover "s1" ∉
      (runSync (fun _ => .ok []) (fun _ _ => none) (fun _ _ => none)
        "" "BTCUSDT" [⟨"s1", false, ""⟩]).1 :=
  runSync_discovery_behavior.1 (fun _ => .ok []) (fun _ _ => none)
    (fun _ _ => none) "" "BTCUSDT" [⟨"s1", false, ""⟩] "s1" (by decide)

end BbgoSync

namespace FtxStream

/-!
### FTX exchange stream (`pkg/exchange/ftx` `Stream`)

`Stream` holds a `publicOnly` flag (an `int32` written/read atomically, set
once by `SetPublicOnly`) and the websocket service.  The calls a `Stream`
makes on its websocket service are embedded as a trace of actions; the
state machine processes a sequence of `Stream` method calls
sequentially.
-/

/-- `types.Channel` is a string-typed enumeration; `types.BookChannel` is
the only channel the FTX stream supports. -/
abbrev Channel := String

/-- Modelled from the spec: the supported order-book channel constant
(`types.BookChannel`, declared outside `src/`). -/
def BookChannel : Channel := "book"

/-- Modelled from the spec: the outbound subscription request operation,
subscribe or unsubscribe (`ftx` websocket operation constants, declared
outside `src/`). -/
inductive WsOperation
  | subscribeOp
  | unsubscribeOp
deriving DecidableEq, Repr

/-- Modelled from the spec: the outbound subscribe message
`{operation, channel, market}` (`ftx` `websocketRequest`, declared outside
`src/`); the channel field carries the ftx `orderbook` enum value. -/
structure WebsocketRequest where
  operation : WsOperation
  channel : String
  market : String
deriving DecidableEq, Repr

/-- Whitespace for the trim step of symbol normalization. -/
def isSpaceChar (c : Char) : Bool :=
  c == ' ' || c == '\t' || c == '\n' || c == '\r'

/-- Drop leading, then trailing, whitespace. -/
def trimChars (l : List Char) : List Char :=
  ((l.dropWhile isSpaceChar).reverse.dropWhile isSpaceChar).reverse

/-- Modelled from the spec: `TrimUpperString` — symbol normalization by
trimming surrounding whitespace and uppercasing (declared outside
`src/`; the spec describes it as "normalizes symbol (trim, uppercase)"). -/
def trimUpperString (s : String) : String :=
  ⟨(trimChars s.data).map Char.toUpper⟩

/-- One call the `Stream` makes on its websocket service, in execution
order. -/
inductive StreamAct
  /-- `wsService.Subscribe(newLoginRequest(key, secret, now))`. -/
  | enqueueLogin
  /-- `wsService.Subscribe(websocketRequest{...})`. -/
  | enqueueReq (r : WebsocketRequest)
  /-- `wsService.Connect(ctx)`: establish the underlying transport. -/
  | transportConnect
deriving DecidableEq, Repr

/-- The mutable state of a `Stream`: the `publicOnly` int32 flag, embedded
as the proposition "the flag is nonzero". -/
structure StreamState where
  publicOnly : Bool
deriving DecidableEq, Repr

/-- `NewStream`: the flag starts at zero. -/
def initStream : StreamState := { publicOnly := false }

/-- A method call on the `Stream`. -/
inductive StreamOp
  | setPublicOnly
  | connect
  | subscribeCall (channel : Channel) (symbol : String)
deriving DecidableEq, Repr

/-- `Stream.Connect`: when `publicOnly == 0`, first enqueue the login
request, then establish the transport. -/
def connectEvents (s : StreamState) : List StreamAct :=
  (if s.publicOnly then [] else [.enqueueLogin]) ++ [.transportConnect]

/-- `Stream.Subscribe`: the source compares `channel` with
`types.BookChannel`, but the mismatch branch is empty (`// TODO: return
err`), so for every channel the call falls through and enqueues the
order-book subscribe request with the normalized market symbol. -/
def subscribeEvents (channel : Channel) (symbol : String) : List StreamAct :=
  [.enqueueReq ⟨.subscribeOp, "orderbook", trimUpperString symbol⟩]

/-- One step of the `Stream` state machine: `SetPublicOnly` stores 1 into
the flag; `Connect` and `Subscribe` leave the state unchanged and emit
their websocket-service calls. -/
def stepStream : StreamState → StreamOp → StreamState × List StreamAct
  | _, .setPublicOnly => ({ publicOnly := true }, [])
  | s, .connect => (s, connectEvents s)
  | s, .subscribeCall ch sym => (s, subscribeEvents ch sym)

/-- Run a sequence of `Stream` method calls, concatenating the emitted
websocket-service calls. -/
def runStream : StreamState → List StreamOp → List StreamAct
  | _, [] => []
  | s, op :: rest =>
    (stepStream s op).2 ++ runStream (stepStream s op).1 rest

/-- State after a sequence of method calls. -/
def streamStateAfter : StreamState → List StreamOp → StreamState
  | s, [] => s
  | s, op :: rest => streamStateAfter (stepStream s op).1 rest

theorem runStream_append (s : StreamState) (l1 l2 : List StreamOp) :
    runStream s (l1 ++ l2) =
      runStream s l1 ++ runStream (streamStateAfter s l1) l2 := by
  induction l1 generalizing s with
  | nil => simp [runStream, streamStateAfter]
  | cons op rest ih =>
    show (stepStream s op).2 ++ runStream (stepStream s op).1 (rest ++ l2) =
      ((stepStream s op).2 ++ runStream (stepStream s op).1 rest) ++
        runStream (streamStateAfter (stepStream s op).1 rest) l2
    rw [ih, List.append_assoc]

theorem publicOnly_sticky (s : StreamState) (ops : List StreamOp)
    (h : s.publicOnly = true) :
    (streamStateAfter s ops).publicOnly = true := by
  induction ops generalizing s with
  | nil => exact h
  | cons op rest ih =>
    cases op with
    | setPublicOnly => exact ih _ rfl
    | connect => exact ih _ h
    | subscribeCall ch sym => exact ih _ h

theorem publicOnly_after_set (s : StreamState) (ops : List StreamOp)
    (h : StreamOp.setPublicOnly ∈ ops) :
    (streamStateAfter s ops).publicOnly = true := by
  induction ops generalizing s with
  | nil => cases h
  | cons op rest ih =>
    rcases List.mem_cons.mp h with rfl | h'
    · exact publicOnly_sticky _ rest rfl
    · exact ih _ h'

theorem no_login_of_publicOnly (s : StreamState) (ops : List StreamOp)
    (h : s.publicOnly = true) :
    StreamAct.enqueueLogin ∉ runStream s ops := by
  induction ops generalizing s with
  | nil => simp [runStream]
  | cons op rest ih =>
    cases op with
    | setPublicOnly =>
      simpa [runStream, stepStream] using ih { publicOnly := true } rfl
    | connect =>
      simp only [runStream, stepStream, connectEvents, h, if_true,
        List.nil_append, List.mem_append, List.mem_singleton]
      rintro (hx | hx)
      · cases hx
      · exact ih s h hx
    | subscribeCall ch sym =>
      simp only [runStream, stepStream, subscribeEvents, List.mem_append,
        List.mem_singleton]
      rintro (hx | hx)
      · cases hx
      · exact ih s h hx

theorem no_login_of_no_connect (s : StreamState) (ops : List StreamOp)
    (h : ∀ op ∈ ops, op ≠ StreamOp.connect) :
    StreamAct.enqueueLogin ∉ runStream s ops := by
  induction ops generalizing s with
  | nil => simp [runStream]
  | cons op rest ih =>
    have hrest : ∀ op ∈ rest, op ≠ StreamOp.connect := fun o ho =>
      h o (List.mem_cons_of_mem _ ho)
    cases op with
    | setPublicOnly =>
      simpa [runStream, stepStream] using ih { publicOnly := true } hrest
    | connect => exact absurd rfl (h _ (List.mem_cons_self _ _))
    | subscribeCall ch sym =>
      simp only [runStream, stepStream, subscribeEvents, List.mem_append,
        List.mem_singleton]
      rintro (hx | hx)
      · cases hx
      · exact ih s hrest hx

theorem count_login_runStream (s : StreamState) (ops : List StreamOp)
    (h : StreamOp.setPublicOnly ∉ ops) (hs : s.publicOnly = false) :
    (runStream s ops).count StreamAct.enqueueLogin =
      ops.count StreamOp.connect := by
  induction ops generalizing s with
  | nil => simp [runStream]
  | cons op rest ih =>
    have hrest : StreamOp.setPublicOnly ∉ rest := fun hx =>
      h (List.mem_cons_of_mem _ hx)
    cases op with
    | setPublicOnly => exact absurd (List.mem_cons_self _ _) h
    | connect =>
      simp only [runStream, stepStream, connectEvents, hs, if_false,
        Bool.false_eq_true, List.count_append, List.count_cons,
        List.count_nil]
      rw [ih s hrest hs]
      simp only [beq_self_eq_true, if_true]
      have : (StreamAct.transportConnect == StreamAct.enqueueLogin) = false :=
        rfl
      rw [this]
      simp only [Bool.false_eq_true, if_false]
      omega
    | subscribeCall ch sym =>
      simp only [runStream, stepStream, subscribeEvents, List.count_append]
      rw [ih s hrest hs]
      simp [List.count_cons, List.count_singleton]

theorem state_unchanged_of_no_set (s : StreamState) (ops : List StreamOp)
    (h : StreamOp.setPublicOnly ∉ ops) :
    streamStateAfter s ops = s := by
  induction ops generalizing s with
  | nil => rfl
  | cons op rest ih =>
    have hrest : StreamOp.setPublicOnly ∉ rest := fun hx =>
      h (List.mem_cons_of_mem _ hx)
    cases op with
    | setPublicOnly => exact absurd (List.mem_cons_self _ _) h
    | connect => exact ih _ hrest
    | subscribeCall ch sym => exact ih _ hrest

/-- **C4.** Login behavior of the stream over any sequence of method
calls starting from `NewStream`: (1) if `SetPublicOnly` is called before
the first `Connect` (i.e. during a prefix containing no `Connect`), no
login request is ever enqueued for the lifetime of the instance; (2) if
`SetPublicOnly` is never called and exactly one `Connect` occurs, exactly
one login request is enqueued, and it is immediately followed by the
transport establishment (so it is enqueued before the transport is
established). -/
theorem stream_login_behavior :
    (∀ pre post : List StreamOp,
        StreamOp.setPublicOnly ∈ pre →
        (∀ op ∈ pre, op ≠ StreamOp.connect) →
        StreamAct.enqueueLogin ∉ runStream initStream (pre ++ post)) ∧
    (∀ ops : List StreamOp,
        StreamOp.setPublicOnly ∉ ops →
        ops.count StreamOp.connect = 1 →
        (runStream initStream ops).count StreamAct.enqueueLogin = 1 ∧
        [StreamAct.enqueueLogin, StreamAct.transportConnect] <:+:
          runStream initStream ops) := by
  constructor
  · intro pre post hset hnoc
    rw [runStream_append]
    simp only [List.mem_append]
    rintro (hx | hx)
    · exact no_login_of_no_connect initStream pre hnoc hx
    · exact no_login_of_publicOnly _ post
        (publicOnly_after_set initStream pre hset) hx
  · intro ops hset hcount
    refine ⟨count_login_runStream initStream ops hset rfl ▸ hcount, ?_⟩
    have hconn : StreamOp.connect ∈ ops := by
      rw [← List.count_pos_iff, hcount]
      exact Nat.one_pos
    obtain ⟨l1, l2, rfl⟩ := List.append_of_mem hconn
    have hl1 : StreamOp.setPublicOnly ∉ l1 := fun hx =>
      hset (List.mem_append.mpr (Or.inl hx))
    rw [runStream_append, state_unchanged_of_no_set initStream l1 hl1]
    refine ⟨runStream initStream l1, runStream initStream l2, ?_⟩
    simp [runStream, stepStream, connectEvents, initStream]

/-- Witness for the stream login behavior theorem: a concrete
`SetPublicOnly`-then-`Connect` run enqueues no login, and a lone `Connect`
run enqueues exactly one login, right before the transport call. -/
theorem stream_login_behavior_witness :
    (StreamAct.enqueueLogin ∉
        runStream initStream ([StreamOp.setPublicOnly] ++ [StreamOp.connect])) ∧
    ((runStream initStream [StreamOp.connect]).count StreamAct.enqueueLogin = 1 ∧
      [StreamAct.enqueueLogin, StreamAct.transportConnect] <:+:
        runStream initStream [StreamOp.connect]) :=
  ⟨stream_login_behavior.1 [StreamOp.setPublicOnly] [StreamOp.connect]
      (by decide) (by decide),
    stream_login_behavior.2 [StreamOp.connect] (by decide) (by decide)⟩

/-- **C5 (counterexample).** Subscribing with the unsupported channel
`"trade"` is *not* a no-op: the unsupported-channel branch in the source is
empty (`// TODO: return err`), so the call still enqueues one order-book
subscribe request. -/
theorem stream_subscribe_unsupported_not_noop :
    ("trade" : Channel) ≠ BookChannel ∧
    runStream initStream [StreamOp.subscribeCall "trade" "ltc-usdt"] ≠ [] ∧
    runStream initStream [StreamOp.subscribeCall "trade" "ltc-usdt"] =
      [.enqueueReq ⟨.subscribeOp, "orderbook", "LTC-USDT"⟩] := by
  refine ⟨by decide, ?_, ?_⟩ <;> decide

/-- **C5 (amended).** For *every* channel value — supported or not — and
every stream state, `Subscribe` surfaces no error and enqueues exactly one
subscribe request, carrying the order-book channel and the normalized
symbol; the unsupported-channel check has no effect (its body is an empty
`TODO`). -/
theorem stream_subscribe_any_channel (s : StreamState) (channel : Channel)
    (symbol : String) :
    runStream s [StreamOp.subscribeCall channel symbol] =
      [.enqueueReq ⟨.subscribeOp, "orderbook", trimUpperString symbol⟩] ∧
    (runStream s [StreamOp.subscribeCall channel symbol]).length = 1 := by
  constructor <;> rfl

/-- **C9.** A single `Subscribe` call with the supported order-book
channel enqueues exactly one subscribe request, whose operation is
subscribe, whose channel is the order-book enum, and whose market is the
trimmed-and-uppercased symbol; in particular `"ltc-usdt"` produces the
market `"LTC-USDT"`. -/
theorem stream_subscribe_book_normalizes (s : StreamState) (symbol : String) :
    runStream s [StreamOp.subscribeCall BookChannel symbol] =
      [.enqueueReq ⟨.subscribeOp, "orderbook", trimUpperString symbol⟩] ∧
    trimUpperString "ltc-usdt" = "LTC-USDT" := by
  constructor
  · rfl
  · decide

end FtxStream

namespace BbgoSync

/-!
### Start-time resolution (`SyncCmd.RunE`, `sync.go:62-77`)

`startTime` defaults to `time.Now().AddDate(0, -3, 0)`; when `--since` is
supplied it is `time.ParseInLocation("2006-01-02", since, Asia/Taipei)`.
Wall-clock instants are embedded as calendar date-times tagged with their
location; `AddDate(0, -3, 0)` keeps the wall-clock fields and location and
normalizes the date exactly as Go's `time.Date` does (for any valid input
date the day overflow rolls over into at most the following month, which
the embedding implements directly). -/

/-- Location tag of an embedded instant: the process-local zone used by
`time.Now`, or Asia/Taipei loaded for `--since` parsing. -/
inductive Loc
  | procLocal
  | taipei
deriving DecidableEq, Repr

/-- A wall-clock instant: calendar date, time of day, and location. -/
structure DateTime where
  year : Int
  month : Nat
  day : Nat
  hour : Nat
  minute : Nat
  second : Nat
  loc : Loc
deriving DecidableEq, Repr

/-- Gregorian leap-year rule (Go `isLeap`). -/
def isLeap (y : Int) : Bool :=
  y % 4 == 0 && (y % 100 != 0 || y % 400 == 0)

/-- Days in a month (Go `daysIn`); `0` for an out-of-range month index. -/
def daysInMonth (y : Int) (m : Nat) : Nat :=
  match m with
  | 1 => 31
  | 2 => if isLeap y then 29 else 28
  | 3 => 31
  | 4 => 30
  | 5 => 31
  | 6 => 30
  | 7 => 31
  | 8 => 31
  | 9 => 30
  | 10 => 31
  | 11 => 30
  | 12 => 31
  | _ => 0

/-- Value of a decimal digit character. -/
def digitVal (c : Char) : Option Nat :=
  if c.isDigit then some (c.toNat - 48) else none

/-- Range validation and construction shared by the parse path: Go's
`Parse` rejects a month outside 1..12 and a day outside the month's
length, and the parsed layout `2006-01-02` leaves the clock at midnight in
the supplied location (Asia/Taipei). -/
def checkDate (year : Int) (month day : Nat) : Option DateTime :=
  if 1 ≤ month ∧ month ≤ 12 ∧ 1 ≤ day ∧ day ≤ daysInMonth year month then
    some ⟨year, month, day, 0, 0, 0, .taipei⟩
  else none

/-- `time.ParseInLocation("2006-01-02", s, Asia/Taipei)`: a four-digit
year, a dash, a zero-padded two-digit month, a dash, a zero-padded
two-digit day, nothing else; in-range month and day.  (Signed-year strings
accepted by Go's `atoi` are not modelled; the claims concern digit-only
dates.) -/
def parseSince (s : String) : Option DateTime :=
  match s.data with
  | [y1, y2, y3, y4, '-', m1, m2, '-', d1, d2] =>
    match digitVal y1, digitVal y2, digitVal y3, digitVal y4,
        digitVal m1, digitVal m2, digitVal d1, digitVal d2 with
    | some a, some b, some c, some d, some e, some f, some g, some h =>
      checkDate (Int.ofNat (((a * 10 + b) * 10 + c) * 10 + d))
        (e * 10 + f) (g * 10 + h)
    | _, _, _, _, _, _, _, _ => none
  | _ => none

/-- The (year, month) three months before the given (year, month). -/
def monthSub3 (y : Int) (m : Nat) : Int × Nat :=
  if 4 ≤ m then (y, m - 3) else (y - 1, m + 9)

/-- `now.AddDate(0, -3, 0)`: subtract three months and renormalize the
date the way Go's `time.Date` does; a day past the end of the target month
rolls over into the following month. -/
def addDateMinus3Months (dt : DateTime) : DateTime :=
  if dt.day ≤ daysInMonth (monthSub3 dt.year dt.month).1
      (monthSub3 dt.year dt.month).2 then
    { dt with
        year := (monthSub3 dt.year dt.month).1,
        month := (monthSub3 dt.year dt.month).2 }
  else if (monthSub3 dt.year dt.month).2 = 12 then
    { dt with
        year := (monthSub3 dt.year dt.month).1 + 1,
        month := 1,
        day := dt.day - daysInMonth (monthSub3 dt.year dt.month).1
          (monthSub3 dt.year dt.month).2 }
  else
    { dt with
        year := (monthSub3 dt.year dt.month).1,
        month := (monthSub3 dt.year dt.month).2 + 1,
        day := dt.day - daysInMonth (monthSub3 dt.year dt.month).1
          (monthSub3 dt.year dt.month).2 }

/-- Start-time resolution of `SyncCmd.RunE`: the `--since` string, when
non-empty, is parsed as a Taipei calendar date (a parse failure aborts the
run); otherwise the start time is `now.AddDate(0, -3, 0)` in the process
zone. -/
def resolveStartTime (since : String) (now : DateTime) :
    Except Err DateTime :=
  if since.length > 0 then
    match parseSince since with
    | some t => .ok t
    | none => .error "cannot parse since time"
  else .ok (addDateMinus3Months now)

/-- The claim's "invocation instant minus exactly 3 calendar months":
same day, time of day and location, month decreased by three with a year
borrow. -/
def minusThreeCalendarMonths (dt : DateTime) : DateTime :=
  if 4 ≤ dt.month then { dt with month := dt.month - 3 }
  else { dt with year := dt.year - 1, month := dt.month + 9 }

theorem checkDate_midnight_taipei (year : Int) (month day : Nat)
    (dt : DateTime) (h : checkDate year month day = some dt) :
    dt.hour = 0 ∧ dt.minute = 0 ∧ dt.second = 0 ∧ dt.loc = .taipei := by
  unfold checkDate at h
  split at h
  · cases h
    exact ⟨rfl, rfl, rfl, rfl⟩
  · exact Option.noConfusion h

/-- **C8.** Start-time resolution: (1) `--since "2022-01-01"` resolves,
for every invocation instant, to midnight 2022-01-01 in Asia/Taipei
(UTC+8); (2) every successfully parsed `--since` value is midnight in
Asia/Taipei on the parsed calendar date; (3) with `--since` absent the
start time is the invocation instant minus exactly three calendar months
(same day and time of day, month decreased by three with a year borrow),
whenever that day exists in the target month. -/
theorem resolveStartTime_resolution :
    (∀ now : DateTime, resolveStartTime "2022-01-01" now =
        .ok ⟨2022, 1, 1, 0, 0, 0, .taipei⟩) ∧
    (∀ (s : String) (dt : DateTime), parseSince s = some dt →
        dt.hour = 0 ∧ dt.minute = 0 ∧ dt.second = 0 ∧ dt.loc = .taipei) ∧
    (∀ now : DateTime,
        now.day ≤ daysInMonth (monthSub3 now.year now.month).1
          (monthSub3 now.year now.month).2 →
        resolveStartTime "" now = .ok (minusThreeCalendarMonths now)) := by
  refine ⟨fun now => rfl, ?_, ?_⟩
  · intro s dt h
    unfold parseSince at h
    split at h
    · split at h
      · exact checkDate_midnight_taipei _ _ _ _ h
      · exact Option.noConfusion h
    · exact Option.noConfusion h
  · intro now hday
    unfold resolveStartTime
    rw [if_neg (by decide : ¬(("" : String).length > 0))]
    unfold addDateMinus3Months
    rw [if_pos hday]
    unfold minusThreeCalendarMonths monthSub3
    by_cases hm : 4 ≤ now.month
    · simp only [if_pos hm]
    · simp only [if_neg hm]

/-- Witness for start-time resolution: parsing a concrete date yields
midnight Taipei, and the default branch at a concrete May 15 instant
yields February 15 of the same year with the clock preserved. -/
theorem resolveStartTime_resolution_witness :
    ((DateTime.mk 2022 1 1 0 0 0 .taipei).hour = 0 ∧
      (DateTime.mk 2022 1 1 0 0 0 .taipei).minute = 0 ∧
      (DateTime.mk 2022 1 1 0 0 0 .taipei).second = 0 ∧
      (DateTime.mk 2022 1 1 0 0 0 .taipei).loc = .taipei) ∧
    resolveStartTime "" ⟨2022, 5, 15, 10, 30, 0, .procLocal⟩ =
      .ok (minusThreeCalendarMonths ⟨2022, 5, 15, 10, 30, 0, .procLocal⟩) :=
  ⟨resolveStartTime_resolution.2.1 "2022-01-01"
      ⟨2022, 1, 1, 0, 0, 0, .taipei⟩ (by decide),
    resolveStartTime_resolution.2.2 ⟨2022, 5, 15, 10, 30, 0, .procLocal⟩
      (by decide)⟩

end BbgoSync

namespace KucoinCmd

/-!
### Kucoin example `orders cancel` command (`cancelOrderCmd.RunE`)

The command reads the `--order-id` and `--client-order-id` string flags,
attaches exactly one of them to a new cancel-order request (order id
first), errors out when both are empty, and only then issues the request.
The embedding returns either the request handed to `req.Do` or the error
returned before any request is issued. -/

/-- The cancel-order request under construction: which identifier fields
were attached before `Do`. -/
structure CancelOrderRequest where
  orderID : Option String
  clientOrderID : Option String
deriving DecidableEq, Repr

/-- `cancelOrderCmd.RunE` flag handling: a non-empty `--order-id` wins,
else a non-empty `--client-order-id`, else an error with no request
issued. -/
def cancelOrderRun (orderID clientOrderID : String) :
    Except String CancelOrderRequest :=
  if orderID.length > 0 then .ok ⟨some orderID, none⟩
  else if clientOrderID.length > 0 then .ok ⟨none, some clientOrderID⟩
  else .error "either order id or client order id is required"

/-- **C10.** Cancel-order flag precedence: a non-empty `--order-id` is
attached and `--client-order-id` is ignored even when non-empty; only with
an empty `--order-id` is a non-empty `--client-order-id` attached; with
both empty the command errors out and no request is issued. -/
theorem cancelOrder_flag_precedence :
    (∀ oid coid : String, oid.length > 0 →
        cancelOrderRun oid coid = .ok ⟨some oid, none⟩) ∧
    (∀ oid coid : String, oid.length = 0 → coid.length > 0 →
        cancelOrderRun oid coid = .ok ⟨none, some coid⟩) ∧
    (∀ oid coid : String, oid.length = 0 → coid.length = 0 →
        cancelOrderRun oid coid =
          .error "either order id or client order id is required") := by
  refine ⟨?_, ?_, ?_⟩
  · intro oid coid h
    unfold cancelOrderRun
    rw [if_pos h]
  · intro oid coid h0 h1
    unfold cancelOrderRun
    rw [if_neg (by omega), if_pos h1]
  · intro oid coid h0 h1
    unfold cancelOrderRun
    rw [if_neg (by omega), if_neg (by omega)]

/-- Witness for the cancel-order precedence theorem at concrete flag
values, including the case where both flags are non-empty. -/
theorem cancelOrder_flag_precedence_witness :
    cancelOrderRun "oid-1" "cid-1" = .ok ⟨some "oid-1", none⟩ ∧
    cancelOrderRun "" "cid-1" = .ok ⟨none, some "cid-1"⟩ ∧
    cancelOrderRun "" "" =
      .error "either order id or client order id is required" :=
  ⟨cancelOrder_flag_precedence.1 "oid-1" "cid-1" (by decide),
    cancelOrder_flag_precedence.2.1 "" "cid-1" (by decide) (by decide),
    cancelOrder_flag_precedence.2.2 "" "" (by decide) (by decide)⟩

end KucoinCmd
